import Mathlib

/-!
Verification of the `true_stark.py` STARK core (ZkVanguard).

Shallow embedding of `src/zkp/core/true_stark.py` and proofs of the spec's
claims about it.

Modelling conventions:

* Python unbounded integers are `Int`; Python `x % m` for `m > 0` is Lean's
  `Int` `%` (`Int.emod`), which agrees with Python's `%` (result in `[0, m)`
  for positive `m`).
* Python byte strings are `List Nat` (one `Nat` per byte).
* `hashlib.sha256(b).digest()` is an abstract parameter
  `sha : List Nat → List Nat`; every theorem is proved for all `sha`.
  Hex-encoding a digest and decoding it back (`.hex()` / `bytes.fromhex`),
  and `str.encode` after `bytes.decode`, are inverse pairs in the Python
  code, so values that make such a round trip are carried directly as bytes.
* `int(h.hexdigest(), 16)` is the big-endian integer of the digest bytes
  (`digestToNat`); `h.hexdigest()` used as a *string* is the explicit
  ASCII hex encoding (`hexAscii`).
* Python dicts used as statements / witnesses are association lists
  `List (String × Int)`; only integer-valued fields are ever read by the
  code under verification.
-/

set_option maxRecDepth 4000
set_option linter.unusedVariables false

namespace TrueStark

/-! ## FiniteField (`true_stark.py` lines 24-67) -/

/-- `FiniteField.add`: `(a + b) % self.prime`. -/
def fadd (p : Nat) (a b : Int) : Int := (a + b) % (p : Int)

/-- `FiniteField.mul`: `(a * b) % self.prime`. -/
def fmul (p : Nat) (a b : Int) : Int := (a * b) % (p : Int)

/-- `FiniteField.sub`: `(a - b) % self.prime`. -/
def fsub (p : Nat) (a b : Int) : Int := (a - b) % (p : Int)

/-- `FiniteField.pow`: `pow(base, exp, self.prime)` (Python three-argument
`pow` for a nonnegative exponent equals `base ^ exp % prime`). -/
def fpow (p : Nat) (b : Int) (e : Nat) : Int := (b ^ e) % (p : Int)

/-- `FiniteField.inv`: `pow(a, self.prime - 2, self.prime)`.  Note that for
`a = 0` Python's `pow(0, p - 2, p)` returns `0`; no exception is raised. -/
def finv (p : Nat) (a : Int) : Int := fpow p a (p - 2)

/-- `FiniteField.div`: `self.mul(a, self.inv(b))`. -/
def fdiv (p : Nat) (a b : Int) : Int := fmul p a (finv p b)

/-- `FiniteField.is_primitive_root`: `pow(g, order, p) == 1` and no smaller
positive power gives `1` (`for i in range(1, order)`). -/
def isPrimitiveRoot (p : Nat) (g : Int) (order : Nat) : Bool :=
  (fpow p g order == 1) && ((List.range' 1 (order - 1)).all fun i => !(fpow p g i == 1))

/-- `FiniteField.get_primitive_root`: search `range(2, min(1000, prime))` for a
primitive root of the given order, falling back to
`pow(2, (prime - 1) // order, prime)`. -/
def getPrimitiveRoot (p : Nat) (order : Nat) : Int :=
  match (List.range' 2 (min 1000 p - 2)).find? (fun c => isPrimitiveRoot p (Int.ofNat c) order) with
  | some c => Int.ofNat c
  | none => fpow p 2 ((p - 1) / order)

/-! ## Polynomial (`true_stark.py` lines 70-129) -/

/-- `Polynomial.evaluate`: Horner's method,
`for coeff in reversed(self.coefficients): result = add(mul(result, x), coeff)`. -/
def polyEval (p : Nat) (coeffs : List Int) (x : Int) : Int :=
  coeffs.reverse.foldl (fun result c => fadd p (fmul p result x) c) 0

/-- `Polynomial.evaluate_domain`. -/
def evaluateDomain (p : Nat) (coeffs : List Int) (domain : List Int) : List Int :=
  domain.map (polyEval p coeffs)

/-- Tail of the `new_basis` array built by the inner loop of
`Polynomial.interpolate` (see `mulXsub`): position `k` (for `1 ≤ k < len`)
receives `add(add(0, basis[k-1]), mul(basis[k], sub(0, xj)))`, and the final
position receives `add(0, basis[len-1])`. -/
def mulXsubGo (p : Nat) (xj prev : Int) : List Int → List Int
  | [] => [fadd p 0 prev]
  | c :: cs => fadd p (fadd p 0 prev) (fmul p c (fsub p 0 xj)) :: mulXsubGo p xj c cs

/-- The inner loop of `Polynomial.interpolate` that multiplies the running
basis polynomial by `(x - xj)`: Python initialises `new_basis = [0] * (len+1)`
and, for each `k`, does `new_basis[k+1] = add(new_basis[k+1], basis[k])` then
`new_basis[k] = add(new_basis[k], mul(basis[k], sub(0, xj)))`.  Position `0`
ends as `add(0, mul(basis[0], sub(0, xj)))`, middle positions as in
`mulXsubGo`, the last as `add(0, basis[len-1])`; an empty basis yields `[0]`. -/
def mulXsub (p : Nat) (xj : Int) : List Int → List Int
  | [] => [0]
  | b0 :: bs => fadd p 0 (fmul p b0 (fsub p 0 xj)) :: mulXsubGo p xj b0 bs

/-- The `# Add to result` loop of `Polynomial.interpolate`:
`for k in range(len(basis)): if k < len(result): result[k] = add(result[k], basis[k])`. -/
def addInto (p : Nat) : List Int → List Int → List Int
  | res, [] => res
  | [], _ => []
  | r :: rs, b :: bs => fadd p r b :: addInto p rs bs

/-- One iteration of the `for j in range(n)` loop of
`Polynomial.interpolate`: skip `j = i` (`if i != j`), otherwise multiply the
basis by `(x - xj)` and scale every coefficient by `inv(xi - xj)`. -/
def lagrangeStep (p : Nat) (pts : List (Int × Int)) (i : Nat)
    (basis : List Int) (j : Nat) : List Int :=
  if i = j then basis
  else
    (mulXsub p (pts.getD j (0, 0)).1 basis).map
      (fun c => fmul p c (finv p (fsub p (pts.getD i (0, 0)).1 (pts.getD j (0, 0)).1)))

/-- The Lagrange basis polynomial built for point `i` by
`Polynomial.interpolate`: starting from `[yi]`, fold `lagrangeStep` over
`j in range(n)`. -/
def lagrangeBasis (p : Nat) (pts : List (Int × Int)) (i : Nat) : List Int :=
  (List.range pts.length).foldl (lagrangeStep p pts i) [(pts.getD i (0, 0)).2]

/-- `Polynomial.interpolate`: `result = [0] * n`, then for each `i` add the
`i`-th Lagrange basis polynomial into `result`. -/
def interpolate (p : Nat) (pts : List (Int × Int)) : List Int :=
  (List.range pts.length).foldl
    (fun result i => addInto p result (lagrangeBasis p pts i))
    (List.replicate pts.length 0)

/-! ## MerkleTree (`true_stark.py` lines 132-196) -/

/-- One pass of the `while len(level) > 1` loop in `MerkleTree._build_tree`:
`parent = sha256(left + right)` over adjacent pairs, with
`right = level[i + 1] if i + 1 < len(level) else left` (the last digest is
paired with itself when the level has odd length). -/
def pairUp (sha : List Nat → List Nat) : List (List Nat) → List (List Nat)
  | [] => []
  | [x] => [sha (x ++ x)]
  | x :: y :: rest => sha (x ++ y) :: pairUp sha rest

/-- Fuel-driven form of the `while len(level) > 1` loop of
`MerkleTree._build_tree`.  One `pairUp` at least halves a level of length
`≥ 2`, so a fuel equal to the initial level length always suffices
(`buildLevelsGo_eq` below recovers the natural unfolding); structural
recursion on the fuel keeps the function kernel-reducible. -/
def buildLevelsGo (sha : List Nat → List Nat) :
    Nat → List (List Nat) → List (List (List Nat))
  | 0, level => [level]
  | fuel + 1, level =>
    if level.length ≤ 1 then [level]
    else level :: buildLevelsGo sha fuel (pairUp sha level)

/-- The digest levels built by `MerkleTree._build_tree` above the raw leaves
(`self.tree[1:]` in Python) for a nonempty leaf list: the hashed leaves, then
repeatedly `pairUp` while more than one digest remains, recording every
level. -/
def buildLevels (sha : List Nat → List Nat) (level : List (List Nat)) :
    List (List (List Nat)) :=
  buildLevelsGo sha level.length level

/-- Digest levels of `MerkleTree._build_tree`: `[[sha256(b'')]]` when there
are no leaves, else `buildLevels` over the hashed leaves. -/
def merkleLevels (sha : List Nat → List Nat) (leaves : List (List Nat)) :
    List (List (List Nat)) :=
  if leaves.isEmpty then [[sha []]]
  else buildLevels sha (leaves.map sha)

/-- `MerkleTree.root`: `self.tree[-1][0]`, defaulting to `sha256(b'')`. -/
def merkleRoot (sha : List Nat → List Nat) (leaves : List (List Nat)) : List Nat :=
  ((merkleLevels sha leaves).getLastD []).headD (sha [])

/-- The loop of `MerkleTree.prove` over `self.tree[1 : len(self.tree) - 1]`
(every digest level except the root level): record the sibling digest
(`sibling_index = current_index ^ 1`, falling back to the current digest when
the sibling index is out of range) with `is_left = (current_index % 2 == 0)`,
then halve the index. -/
def proveAux : List (List (List Nat)) → Nat → List (List Nat × Bool)
  | [], _ => []
  | [_], _ => []
  | level :: next :: rest, idx =>
    (if idx ^^^ 1 < level.length then level.getD (idx ^^^ 1) [] else level.getD idx [],
      idx % 2 == 0) :: proveAux (next :: rest) (idx / 2)

/-- `MerkleTree.prove`. -/
def merkleProve (sha : List Nat → List Nat) (leaves : List (List Nat)) (index : Nat) :
    List (List Nat × Bool) :=
  proveAux (merkleLevels sha leaves) index

/-- The verification loop of `MerkleTree.verify`: starting from `sha256(leaf)`,
fold each `(sibling, is_left)` step as `sha256(current + sibling)` when the
current node is the left child and `sha256(sibling + current)` otherwise. -/
def verifyFold (sha : List Nat → List Nat) (proof : List (List Nat × Bool))
    (current : List Nat) : List Nat :=
  proof.foldl (fun cur sp => if sp.2 then sha (cur ++ sp.1) else sha (sp.1 ++ cur)) current

/-- `MerkleTree.verify`: rebuild the root from the hashed leaf along the
sibling chain and compare with the supplied root.  The `index` parameter is
accepted but never read - exactly as in the Python code. -/
def merkleVerify (sha : List Nat → List Nat) (leaf : List Nat) (index : Nat)
    (proof : List (List Nat × Bool)) (root : List Nat) : Bool :=
  verifyFold sha proof (sha leaf) == root

/-- The hardcoded 521-bit prime of `TrueZKStark.__init__`
(`self.prime = 68647976601306097149...7151`). -/
def starkPrime : Nat :=
  6864797660130609714981900799081393217269435300143305409394463459185543183397656052122559640661454554977296311391480858037121987999716643812574028291115057151

/-- A small concrete stand-in for SHA-256 used to instantiate witness
theorems (any function of type `List Nat → List Nat` works). -/
def shaToy : List Nat → List Nat :=
  fun bs => [bs.foldl (fun a b => (a * 31 + b) % 251) 7]

/-! ## Horner evaluation over `ZMod p` (proof infrastructure for
interpolation correctness) -/

/-- Horner-form evaluation of a coefficient list over `ZMod p`; the image
of `polyEval` under the canonical cast. -/
def hornerZ {p : Nat} : List (ZMod p) → ZMod p → ZMod p
  | [], _ => 0
  | c :: cs, x => c + x * hornerZ cs x

/-! ## STARKConfig, AIR, FRI, prover and verifier
(`true_stark.py` lines 14-21, 199-327, 330-487) -/

/-- `STARKConfig` with its Python default values. -/
structure STARKConfig where
  trace_length : Nat := 1024
  blowup_factor : Nat := 8
  num_queries : Nat := 40
  num_colinearity_tests : Nat := 16
  grinding_bits : Nat := 20

/-- `STARKConfig()` as instantiated by `TrueZKStark.__init__`. -/
def defaultConfig : STARKConfig := {}

/-- `AIR.boundary_constraints`: `(0, trace[0])` when the trace is nonempty,
plus `(len - 1, trace[-1])` when it has more than one entry. -/
def boundaryConstraints (trace : List Int) : List (Nat × Int) :=
  (if trace.length > 0 then [(0, trace.getD 0 0)] else []) ++
    (if trace.length > 1 then [(trace.length - 1, trace.getD (trace.length - 1) 0)] else [])

/-- `AIR.transition_constraints`: `sub(next_val, add(current, 1))`. -/
def transitionConstraint (p : Nat) (current next_val : Int) : Int :=
  fsub p next_val (fadd p current 1)

/-- `AIR.evaluate_constraints`: every transition constraint vanishes and
every boundary constraint matches the trace. -/
def airEvaluate (p : Nat) (trace : List Int) : Bool :=
  ((List.range (trace.length - 1)).all fun i =>
    transitionConstraint p (trace.getD i 0) (trace.getD (i + 1) 0) == 0) &&
  ((boundaryConstraints trace).all fun c => trace.getD c.1 0 == c.2)

/-- `str(n).encode()`: ASCII decimal digits (a leading `'-'` for negative
values, which the pipeline never produces). -/
def decimalBytes (n : Int) : List Nat :=
  if n < 0 then 45 :: ((Nat.toDigits 10 n.natAbs).map Char.toNat)
  else (Nat.toDigits 10 n.toNat).map Char.toNat

/-- `int(h.hexdigest(), 16)`: the digest bytes read as a big-endian
integer. -/
def digestToNat (bs : List Nat) : Nat :=
  bs.foldl (fun acc b => acc * 256 + b) 0

/-- One lowercase ASCII hex character. -/
def hexDigit (d : Nat) : Nat := if d < 10 then 48 + d else 87 + d

/-- `h.hexdigest()` kept as an ASCII byte string (two lowercase hex
characters per digest byte). -/
def hexAscii (bs : List Nat) : List Nat :=
  bs.foldr (fun b acc => hexDigit (b / 16) :: hexDigit (b % 16) :: acc) []

/-- Python slice `l[::2]`. -/
def everyOther {α : Type} : List α → List α
  | [] => []
  | [x] => [x]
  | x :: _ :: rest => x :: everyOther rest

/-- The tail of the folding loop of `FRI.commit_phase` once the even
coefficients are exhausted: `add(0, mul(challenge, odd))`. -/
def foldCombineTail (p : Nat) (ch : Int) : List Int → List Int
  | [] => []
  | o :: os => fadd p 0 (fmul p ch o) :: foldCombineTail p ch os

/-- The folding loop of `FRI.commit_phase`:
`next_coeffs.append(add(even, mul(challenge, odd)))` for
`i < max(len(even_coeffs), len(odd_coeffs))`, missing entries defaulting
to `0`. -/
def foldCombine (p : Nat) (ch : Int) : List Int → List Int → List Int
  | [], os => foldCombineTail p ch os
  | e :: es, [] => fadd p e (fmul p ch 0) :: foldCombine p ch es []
  | e :: es, o :: os => fadd p e (fmul p ch o) :: foldCombine p ch es os

/-- The `# Split and fold polynomial` step of `FRI.commit_phase`:
`even_coeffs = coefficients[0::2]`, `odd_coeffs = coefficients[1::2]`,
then `f_even + challenge * f_odd`. -/
def foldPoly (p : Nat) (ch : Int) (coeffs : List Int) : List Int :=
  foldCombine p ch (everyOther coeffs) (everyOther (coeffs.drop 1))

/-- `FRI.commit_phase`: while `len(current_domain) > num_queries`, evaluate
the polynomial on the domain, Merkle-commit the decimal byte encodings of
the evaluations, derive the Fiat-Shamir challenge
`int(sha256(root).hexdigest(), 16) % prime`, fold the polynomial and take
every other domain point.  Returns the per-round committed leaf lists (a
Merkle tree is determined by its leaves) and the per-round folded
polynomials.  (For `num_queries = 0` and a singleton domain the Python loop
would not terminate; the `2 ≤ len` guard totalises the recursion and agrees
with Python whenever `num_queries ≥ 1`, which holds for every configuration
used.) -/
def commitPhaseGo (p : Nat) (Q : Nat) (sha : List Nat → List Nat) :
    Nat → List Int → List Int → List (List (List Nat)) × List (List Int)
  | 0, _, _ => ([], [])
  | fuel + 1, coeffs, domain =>
    if Q < domain.length ∧ 2 ≤ domain.length then
      let evals := domain.map (polyEval p coeffs)
      let leaves := evals.map decimalBytes
      let challenge : Int := ((digestToNat (sha (merkleRoot sha leaves)) % p : Nat) : Int)
      let folded := foldPoly p challenge coeffs
      let rest := commitPhaseGo p Q sha fuel folded (everyOther domain)
      (leaves :: rest.1, folded :: rest.2)
    else ([], [])

/-- Entry point: a fuel equal to the initial domain length always suffices
(each round at least halves a domain of length `≥ 2`); `commitPhase_eq`
below recovers the natural loop unfolding. -/
def commitPhase (p : Nat) (Q : Nat) (sha : List Nat → List Nat)
    (coeffs : List Int) (domain : List Int) :
    List (List (List Nat)) × List (List Int) :=
  commitPhaseGo p Q sha domain.length coeffs domain

/-- A single FRI query layer as stored in the proof: the opened leaf
(`value.decode()` on the prover side, re-encoded by `value.encode()` on the
verifier side - an identity round trip, so carried as bytes) and its Merkle
proof (hex-encoded and decoded - also an identity round trip). -/
structure LayerResp where
  value : List Nat
  merkle_proof : List (List Nat × Bool)

/-- One entry of `query_responses`: `{'index': query_idx, 'layers': [...]}`. -/
structure QueryResp where
  index : Nat
  layers : List LayerResp

/-- The per-tree loop of `FRI.query_phase`: when the (halved) index is
inside the tree's leaves, open the leaf together with its Merkle proof;
in either case halve the index for the next layer. -/
def queryLayers (sha : List Nat → List Nat) :
    List (List (List Nat)) → Nat → List LayerResp
  | [], _ => []
  | leaves :: rest, idx =>
    (if idx < leaves.length then
      [⟨leaves.getD idx [], merkleProve sha leaves idx⟩] else []) ++
    queryLayers sha rest (idx / 2)

/-- `FRI.query_phase`. -/
def queryPhase (sha : List Nat → List Nat) (trees : List (List (List Nat)))
    (queries : List Nat) : List QueryResp :=
  queries.map (fun qi => ⟨qi, queryLayers sha trees qi⟩)

/-- Python `d.get(key, default)` on the integer-valued dictionaries used as
statements and witnesses. -/
def dictGet (d : List (String × Int)) (key : String) (dflt : Int) : Int :=
  match d.find? (fun kv => kv.1 == key) with
  | some kv => kv.2
  | none => dflt

/-- `TrueZKStark.generate_execution_trace` loop:
append `current`, then `current = add(current, 1)`. -/
def genTraceGo (p : Nat) : Nat → Int → List Int
  | 0, _ => []
  | n + 1, current => current :: genTraceGo p n (fadd p current 1)

/-- `TrueZKStark.generate_execution_trace`: `current = secret % prime`, then
`trace_length` iterations of the increment loop.  (Its `threshold` parameter
is accepted and never used.) -/
def genTrace (p : Nat) (len : Nat) (secret : Int) : List Int :=
  genTraceGo p len (secret % (p : Int))

/-- The witness extraction of `TrueZKStark.generate_proof`:
`witness.get('secret_value', witness.get('age', 42))`.  The key `secret` is
never consulted. -/
def extractSecret (witness : List (String × Int)) : Int :=
  dictGet witness "secret_value" (dictGet witness "age" 42)

/-- The statement extraction of `TrueZKStark.generate_proof`:
`statement.get('threshold', statement.get('min_age', 21))` (passed on to
`generate_execution_trace`, which ignores it). -/
def extractThreshold (statement : List (String × Int)) : Int :=
  dictGet statement "threshold" (dictGet statement "min_age" 21)

/-- The proof dict assembled by `TrueZKStark.generate_proof` (STEP 11).
The constant string fields `version`, `protocol`, `proof_system` and the
wall-clock `generation_time` are omitted; Python returns the flattened
`{'proof': proof, **proof}`, whose top-level keys are exactly the ones
`verify_proof` reads. -/
structure ProofRecord where
  trace_length : Nat
  extended_trace_length : Nat
  blowup_factor : Nat
  trace_merkle_root : List Nat
  fri_roots : List (List Nat)
  fri_final_polynomial : List Int
  query_responses : List QueryResp
  field_prime : Nat
  security_level : Nat
  air_satisfied : Bool
  statement : List (String × Int)
  public_output : Int

/-- STEP 1 of `TrueZKStark.generate_proof`: the execution trace. -/
def proverTrace (p : Nat) (cfg : STARKConfig) (witness : List (String × Int)) : List Int :=
  genTrace p cfg.trace_length (extractSecret witness)

/-- STEP 3: `domain = [pow(generator, i) for i in range(len(trace))]` with
`generator = get_primitive_root(trace_length)`. -/
def proverDomain (p : Nat) (cfg : STARKConfig) (witness : List (String × Int)) : List Int :=
  (List.range (proverTrace p cfg witness).length).map
    (fun i => fpow p (getPrimitiveRoot p cfg.trace_length) i)

/-- STEP 3: `trace_polynomial = interpolate(zip(domain, trace))`. -/
def proverTracePoly (p : Nat) (cfg : STARKConfig) (witness : List (String × Int)) : List Int :=
  interpolate p ((proverDomain p cfg witness).zip (proverTrace p cfg witness))

/-- STEP 4: `extended_domain_size = len(domain) * blowup_factor`. -/
def proverExtSize (p : Nat) (cfg : STARKConfig) (witness : List (String × Int)) : Nat :=
  (proverDomain p cfg witness).length * cfg.blowup_factor

/-- STEP 4: the blown-up evaluation domain. -/
def proverExtDomain (p : Nat) (cfg : STARKConfig) (witness : List (String × Int)) : List Int :=
  (List.range (proverExtSize p cfg witness)).map
    (fun i => fpow p (getPrimitiveRoot p (proverExtSize p cfg witness)) i)

/-- STEP 5: `extended_evaluations = trace_polynomial.evaluate_domain(extended_domain)`. -/
def proverExtEvals (p : Nat) (cfg : STARKConfig) (witness : List (String × Int)) : List Int :=
  evaluateDomain p (proverTracePoly p cfg witness) (proverExtDomain p cfg witness)

/-- STEP 6: `eval_bytes = [str(e).encode() for e in extended_evaluations]`. -/
def proverEvalBytes (p : Nat) (cfg : STARKConfig) (witness : List (String × Int)) :
    List (List Nat) :=
  (proverExtEvals p cfg witness).map decimalBytes

/-- STEPs 7-8: FRI commit phase on the composition polynomial (the trace
polynomial itself, STEP 7) over the extended domain. -/
def proverFriPair (p : Nat) (cfg : STARKConfig) (sha : List Nat → List Nat)
    (witness : List (String × Int)) : List (List (List Nat)) × List (List Int) :=
  commitPhase p cfg.num_queries sha (proverTracePoly p cfg witness)
    (proverExtDomain p cfg witness)

/-- STEP 9: `challenge_seed = sha256(trace_merkle.root()).hexdigest()`. -/
def proverSeed (p : Nat) (cfg : STARKConfig) (sha : List Nat → List Nat)
    (witness : List (String × Int)) : List Nat :=
  hexAscii (sha (merkleRoot sha (proverEvalBytes p cfg witness)))

/-- STEP 9: `int(sha256(f"{challenge_seed}_{i}".encode()).hexdigest(), 16) %
len(extended_evaluations)` for `i in range(num_queries)` (`95` is the ASCII
underscore of the format string). -/
def proverQueryIndices (p : Nat) (cfg : STARKConfig) (sha : List Nat → List Nat)
    (witness : List (String × Int)) : List Nat :=
  (List.range cfg.num_queries).map
    (fun i =>
      digestToNat (sha (proverSeed p cfg sha witness ++ [95] ++ decimalBytes (Int.ofNat i))) %
        (proverExtEvals p cfg witness).length)

/-- The proof-construction path of `TrueZKStark.generate_proof`
(STEPs 1 and 3-11), taken once the AIR check of STEP 2 has passed; each
field mirrors the Python dict entry of the same name, via the named
pipeline steps above. -/
def genProofBody (p : Nat) (cfg : STARKConfig) (sha : List Nat → List Nat)
    (statement witness : List (String × Int)) : ProofRecord :=
  { trace_length := (proverTrace p cfg witness).length
    extended_trace_length := (proverExtEvals p cfg witness).length
    blowup_factor := cfg.blowup_factor
    trace_merkle_root := merkleRoot sha (proverEvalBytes p cfg witness)
    fri_roots := (proverFriPair p cfg sha witness).1.map (merkleRoot sha)
    fri_final_polynomial :=
      (proverTracePoly p cfg witness :: (proverFriPair p cfg sha witness).2).getLastD []
    query_responses :=
      queryPhase sha (proverFriPair p cfg sha witness).1 (proverQueryIndices p cfg sha witness)
    field_prime := p
    security_level := cfg.grinding_bits
    air_satisfied := true
    statement := statement
    public_output := (proverTrace p cfg witness).getLastD 0 }

/-- `TrueZKStark.generate_proof`: `raise ValueError` (modelled as `none`)
when the generated trace fails the AIR check of STEP 2, otherwise the proof
record. -/
def genProof (p : Nat) (cfg : STARKConfig) (sha : List Nat → List Nat)
    (statement witness : List (String × Int)) : Option ProofRecord :=
  if airEvaluate p (genTrace p cfg.trace_length (extractSecret witness)) then
    some (genProofBody p cfg sha statement witness)
  else none

/-- STEP 1 of `TrueZKStark.verify_proof` for one query: enumerate the
response's layers; for each `layer_idx < len(fri_roots)` verify the Merkle
opening at index `query['index'] // 2 ** layer_idx` against
`fri_roots[layer_idx]` (layers beyond the root list are skipped). -/
def checkLayers (sha : List Nat → List Nat) (roots : List (List Nat)) (idx0 : Nat) :
    Nat → List LayerResp → Bool
  | _, [] => true
  | r, layer :: rest =>
    (if r < roots.length then
      merkleVerify sha layer.value (idx0 / 2 ^ r) layer.merkle_proof (roots.getD r [])
     else true) &&
    checkLayers sha roots idx0 (r + 1) rest

/-- STEP 1 of `TrueZKStark.verify_proof` for one query response. -/
def checkQuery (sha : List Nat → List Nat) (roots : List (List Nat)) (q : QueryResp) : Bool :=
  checkLayers sha roots q.index 0 q.layers

/-- STEP 1 of `TrueZKStark.verify_proof` over all query responses. -/
def merkleChecksPass (sha : List Nat → List Nat) (pr : ProofRecord) : Bool :=
  pr.query_responses.all (checkQuery sha pr.fri_roots)

/-- `TrueZKStark.verify_proof`: STEP 1 (all FRI Merkle openings), STEP 2
(`len(final_poly) > num_queries` rejects) and STEP 3
(`proof.get('air_satisfied', False)`).  Sequential early `return False` in
pure boolean code is the `&&` chain.  The `statement` argument is accepted
and never read. -/
def verifyProof (sha : List Nat → List Nat) (Q : Nat) (pr : ProofRecord)
    (statement : List (String × Int)) : Bool :=
  merkleChecksPass sha pr && decide (pr.fri_final_polynomial.length ≤ Q) && pr.air_satisfied

/-! # Theorems -/

example : interpolate 97 [(1, 2), (1, 3)] = [0, 0] := by decide

example : polyEval 97 (interpolate 97 [(2, 5), (7, 11), (30, 1)]) 7 = 11 := by decide

theorem pairUp_length (sha : List Nat → List Nat) :
    ∀ l : List (List Nat), (pairUp sha l).length = (l.length + 1) / 2
  | [] => rfl
  | [_] => by simp [pairUp]
  | _ :: _ :: rest => by
    simp [pairUp, pairUp_length sha rest]
    omega

theorem buildLevelsGo_small (sha : List Nat → List Nat) :
    ∀ (f : Nat) (level : List (List Nat)),
      level.length ≤ 1 → buildLevelsGo sha f level = [level]
  | 0, level, _ => rfl
  | f + 1, level, h => by simp [buildLevelsGo, h]

theorem buildLevelsGo_irrel (sha : List Nat → List Nat) :
    ∀ (f g : Nat) (level : List (List Nat)), level.length ≤ f → level.length ≤ g →
      buildLevelsGo sha f level = buildLevelsGo sha g level := by
  intro f
  induction f with
  | zero =>
    intro g level hf hg
    have h1 : level.length ≤ 1 := by omega
    rw [buildLevelsGo_small sha 0 level h1, buildLevelsGo_small sha g level h1]
  | succ f ih =>
    intro g level hf hg
    by_cases hs : level.length ≤ 1
    · rw [buildLevelsGo_small sha _ level hs, buildLevelsGo_small sha g level hs]
    · cases g with
      | zero => omega
      | succ g =>
        simp only [buildLevelsGo, if_neg hs]
        congr 1
        apply ih
        · rw [pairUp_length]; omega
        · rw [pairUp_length]; omega

/-- The natural unfolding of `buildLevels` (the Python loop shape). -/
theorem buildLevels_eq (sha : List Nat → List Nat) (level : List (List Nat)) :
    buildLevels sha level =
      if level.length ≤ 1 then [level]
      else level :: buildLevels sha (pairUp sha level) := by
  unfold buildLevels
  by_cases hs : level.length ≤ 1
  · rw [buildLevelsGo_small sha _ level hs, if_pos hs]
  · rw [if_neg hs]
    obtain ⟨f, hf⟩ : ∃ f, level.length = f + 1 := ⟨level.length - 1, by omega⟩
    rw [hf]
    simp only [buildLevelsGo]
    rw [if_neg hs]
    congr 1
    apply buildLevelsGo_irrel
    · rw [pairUp_length]; omega
    · exact Nat.le_refl _

theorem xor_one_of_even (n : Nat) (h : n % 2 = 0) : n ^^^ 1 = n + 1 := by
  apply Nat.eq_of_testBit_eq
  intro i
  rw [Nat.testBit_xor]
  cases i with
  | zero =>
    simp [Nat.testBit_zero, h]
    omega
  | succ i =>
    rw [Nat.testBit_succ, Nat.testBit_succ, Nat.testBit_succ]
    have h2 : (1 : Nat) / 2 = 0 := by omega
    have h3 : (n + 1) / 2 = n / 2 := by omega
    rw [h2, h3]
    simp [Nat.zero_testBit]

theorem xor_one_of_odd (n : Nat) (h : n % 2 = 1) : n ^^^ 1 = n - 1 := by
  apply Nat.eq_of_testBit_eq
  intro i
  rw [Nat.testBit_xor]
  cases i with
  | zero =>
    simp [Nat.testBit_zero, h]
    omega
  | succ i =>
    rw [Nat.testBit_succ, Nat.testBit_succ, Nat.testBit_succ]
    have h2 : (1 : Nat) / 2 = 0 := by omega
    have h3 : (n - 1) / 2 = n / 2 := by omega
    rw [h2, h3]
    simp [Nat.zero_testBit]

/-- The parent level digest above position `idx`: pairing with the right
sibling when `idx` is even and the sibling exists, with itself when `idx` is
the odd tail, and with the left sibling when `idx` is odd. -/
theorem pairUp_getD (sha : List Nat → List Nat) :
    ∀ (l : List (List Nat)) (idx : Nat), idx < l.length →
      (pairUp sha l).getD (idx / 2) [] =
        if idx % 2 = 0 then
          (if idx + 1 < l.length then sha (l.getD idx [] ++ l.getD (idx + 1) [])
           else sha (l.getD idx [] ++ l.getD idx []))
        else sha (l.getD (idx - 1) [] ++ l.getD idx [])
  | [], idx, h => by simp at h
  | [x], 0, _ => by simp [pairUp]
  | [x], idx + 1, h => by simp at h
  | x :: y :: rest, 0, _ => by simp [pairUp]
  | x :: y :: rest, 1, _ => by simp [pairUp]
  | x :: y :: rest, idx + 2, h => by
    have h' : idx < rest.length := by simpa using h
    have ih := pairUp_getD sha rest idx h'
    have hdiv : (idx + 2) / 2 = idx / 2 + 1 := by omega
    have hmod : (idx + 2) % 2 = idx % 2 := by omega
    rw [hdiv, hmod]
    simp only [pairUp, List.getD_cons_succ, List.length_cons]
    rw [ih]
    by_cases he : idx % 2 = 0
    · rw [if_pos he, if_pos he]
      by_cases hr : idx + 1 < rest.length
      · rw [if_pos hr, if_pos (show idx + 2 + 1 < rest.length + 1 + 1 from by omega)]
      · rw [if_neg hr, if_neg (show ¬ idx + 2 + 1 < rest.length + 1 + 1 from by omega)]
    · rw [if_neg he, if_neg he]
      have e1 : idx + 2 - 1 = (idx - 1) + 2 := by omega
      rw [e1]
      simp only [List.getD_cons_succ]

theorem buildLevels_ne_nil (sha : List Nat → List Nat) (level : List (List Nat)) :
    buildLevels sha level ≠ [] := by
  rw [buildLevels_eq]
  split <;> simp

theorem verifyFold_nil (sha : List Nat → List Nat) (cur : List Nat) :
    verifyFold sha [] cur = cur := rfl

theorem verifyFold_cons (sha : List Nat → List Nat) (sp : List Nat × Bool)
    (rest : List (List Nat × Bool)) (cur : List Nat) :
    verifyFold sha (sp :: rest) cur =
      verifyFold sha rest (if sp.2 then sha (cur ++ sp.1) else sha (sp.1 ++ cur)) := rfl

/-- Core Merkle round trip: folding the proof from position `idx` of a level
reconstructs the root digest of the tree built from that level. -/
theorem verifyFold_buildLevels (sha : List Nat → List Nat) :
    ∀ (n : Nat) (level : List (List Nat)) (idx : Nat), level.length = n →
      idx < level.length →
      verifyFold sha (proveAux (buildLevels sha level) idx) (level.getD idx []) =
        ((buildLevels sha level).getLastD []).headD (sha []) := by
  intro n
  induction n using Nat.strong_induction_on with
  | _ n ih =>
    intro level idx hn hidx
    rw [buildLevels_eq]
    by_cases hlen : level.length ≤ 1
    · rw [if_pos hlen]
      cases level with
      | nil => simp at hidx
      | cons a t =>
        have ht : t = [] := by
          cases t with
          | nil => rfl
          | cons b u => simp at hlen
        subst ht
        have hz : idx = 0 := by
          simp only [List.length_cons, List.length_nil] at hidx
          omega
        subst hz
        simp [proveAux, verifyFold_nil]
    · rw [if_neg hlen]
      cases hb : buildLevels sha (pairUp sha level) with
      | nil => exact absurd hb (buildLevels_ne_nil sha _)
      | cons bl bls =>
        simp only [proveAux, verifyFold_cons]
        have hstep :
            (if ((idx % 2 == 0 : Bool)) then
              sha (level.getD idx [] ++
                (if idx ^^^ 1 < level.length then level.getD (idx ^^^ 1) [] else level.getD idx []))
             else
              sha ((if idx ^^^ 1 < level.length then level.getD (idx ^^^ 1) [] else level.getD idx [])
                ++ level.getD idx [])) =
            (pairUp sha level).getD (idx / 2) [] := by
          rw [pairUp_getD sha level idx hidx]
          by_cases he : idx % 2 = 0
          · rw [xor_one_of_even idx he]
            have hb2 : (idx % 2 == 0) = true := by simp [he]
            rw [if_pos hb2, if_pos he]
            by_cases hr : idx + 1 < level.length
            · rw [if_pos hr, if_pos hr]
            · rw [if_neg hr, if_neg hr]
          · have ho : idx % 2 = 1 := by omega
            rw [xor_one_of_odd idx ho]
            have hb2 : ¬ ((idx % 2 == 0) = true) := by simp [ho]
            rw [if_neg hb2, if_neg he, if_pos (show idx - 1 < level.length from by omega)]
        rw [hstep]
        have hidx2 : idx / 2 < (pairUp sha level).length := by
          rw [pairUp_length]
          omega
        have hrec := ih (pairUp sha level).length
          (by rw [pairUp_length]; omega)
          (pairUp sha level) (idx / 2) rfl hidx2
        rw [hb] at hrec
        rw [hrec]
        simp [List.getLastD_cons]

/-- Merkle round trip stated on `MerkleTree` operations: an honestly built
tree verifies its own inclusion proofs. -/
theorem merkle_roundtrip (sha : List Nat → List Nat) (leaves : List (List Nat))
    (i : Nat) (hi : i < leaves.length) :
    merkleVerify sha (leaves.getD i []) i (merkleProve sha leaves i)
      (merkleRoot sha leaves) = true := by
  have hne : leaves.isEmpty = false := by
    cases leaves with
    | nil => simp at hi
    | cons a t => rfl
  rw [merkleVerify, merkleProve, merkleRoot, merkleLevels, hne]
  simp only [Bool.false_eq_true, if_false]
  have hmap : sha (leaves.getD i []) = (leaves.map sha).getD i [] := by
    rw [List.getD_eq_getElem leaves _ hi,
      List.getD_eq_getElem (leaves.map sha) _ (by simpa using hi)]
    simp
  rw [hmap, verifyFold_buildLevels sha (leaves.map sha).length (leaves.map sha) i rfl
    (by simpa using hi)]
  simp

/-! ## Casting the field operations into `ZMod p` -/

theorem cast_fadd (p : Nat) (a b : Int) :
    ((fadd p a b : Int) : ZMod p) = (a : ZMod p) + (b : ZMod p) := by
  unfold fadd
  rw [ZMod.intCast_mod]
  push_cast
  ring

theorem cast_fsub (p : Nat) (a b : Int) :
    ((fsub p a b : Int) : ZMod p) = (a : ZMod p) - (b : ZMod p) := by
  unfold fsub
  rw [ZMod.intCast_mod]
  push_cast
  ring

theorem cast_fmul (p : Nat) (a b : Int) :
    ((fmul p a b : Int) : ZMod p) = (a : ZMod p) * (b : ZMod p) := by
  unfold fmul
  rw [ZMod.intCast_mod]
  push_cast
  ring

theorem cast_fpow (p : Nat) (b : Int) (e : Nat) :
    ((fpow p b e : Int) : ZMod p) = (b : ZMod p) ^ e := by
  unfold fpow
  rw [ZMod.intCast_mod]
  push_cast
  ring

theorem cast_finv (p : Nat) (a : Int) :
    ((finv p a : Int) : ZMod p) = (a : ZMod p) ^ (p - 2) := by
  unfold finv
  exact cast_fpow p a (p - 2)

/-- Any `fadd`/`fsub`/`fmul`/`fpow` result is in `[0, p)` for `p > 0`. -/
theorem emod_range (p : Nat) (hp : 0 < p) (a : Int) : 0 ≤ a % (p : Int) ∧ a % (p : Int) < p :=
  ⟨Int.emod_nonneg a (Int.natCast_ne_zero.mpr hp.ne'),
   Int.emod_lt_of_pos a (by exact_mod_cast hp)⟩

/-- Nonzero elements of `[0, p)` have a multiplicative Fermat inverse:
`a * a^(p-2) ≡ a^(p-1) ≡ 1 (mod p)` for prime `p`. -/
theorem fmul_finv_eq_one (p : Nat) (hp : p.Prime) (a : Int) (ha0 : 0 < a) (hap : a < p) :
    fmul p a (finv p a) = 1 := by
  haveI : Fact p.Prime := ⟨hp⟩
  have hp2 : 2 ≤ p := hp.two_le
  have hcast : ((fmul p a (finv p a) : Int) : ZMod p) = ((1 : Int) : ZMod p) := by
    rw [cast_fmul, cast_finv]
    have hne : (a : ZMod p) ≠ 0 := by
      rw [Ne, ZMod.intCast_zmod_eq_zero_iff_dvd]
      intro hdvd
      have := Int.le_of_dvd ha0 hdvd
      omega
    have : (a : ZMod p) * (a : ZMod p) ^ (p - 2) = (a : ZMod p) ^ (p - 1) := by
      rw [← pow_succ']
      congr 1
      omega
    rw [this, ZMod.pow_card_sub_one_eq_one hne]
    norm_num
  rw [ZMod.intCast_eq_intCast_iff'] at hcast
  have h1 : (1 : Int) % (p : Int) = 1 := by
    rw [Int.emod_eq_of_lt (by norm_num) (by exact_mod_cast hp2)]
  have h2 : (fmul p a (finv p a)) % (p : Int) = fmul p a (finv p a) := by
    have hr := emod_range p hp.pos (a * finv p a)
    exact Int.emod_eq_of_lt hr.1 hr.2
  rw [h1, h2] at hcast
  exact hcast

theorem polyEval_nil (p : Nat) (x : Int) : polyEval p [] x = 0 := rfl

theorem polyEval_cons (p : Nat) (c : Int) (cs : List Int) (x : Int) :
    polyEval p (c :: cs) x = fadd p (fmul p (polyEval p cs x) x) c := by
  unfold polyEval
  rw [List.reverse_cons, List.foldl_append]
  rfl

theorem cast_polyEval (p : Nat) (cs : List Int) (x : Int) :
    ((polyEval p cs x : Int) : ZMod p) =
      hornerZ (cs.map (Int.cast : Int → ZMod p)) ((x : Int) : ZMod p) := by
  induction cs with
  | nil => simp [polyEval_nil, hornerZ]
  | cons c cs ih =>
    rw [polyEval_cons, cast_fadd, cast_fmul, ih]
    show _ = hornerZ ((c : ZMod p) :: cs.map (Int.cast : Int → ZMod p)) _
    rw [hornerZ]
    ring

theorem polyEval_range (p : Nat) (hp : 0 < p) (cs : List Int) (x : Int) :
    0 ≤ polyEval p cs x ∧ polyEval p cs x < p := by
  cases cs with
  | nil =>
    rw [polyEval_nil]
    exact ⟨le_refl 0, by exact_mod_cast hp⟩
  | cons c cs =>
    rw [polyEval_cons]
    exact emod_range p hp _

theorem hornerZ_nil (p : Nat) (x : ZMod p) : hornerZ [] x = 0 := rfl

theorem hornerZ_cons (p : Nat) (c : ZMod p) (cs : List (ZMod p)) (x : ZMod p) :
    hornerZ (c :: cs) x = c + x * hornerZ cs x := rfl

theorem hornerZ_mulXsubGo (p : Nat) (xj : Int) :
    ∀ (cs : List Int) (prev : Int) (x : ZMod p),
      hornerZ ((mulXsubGo p xj prev cs).map (Int.cast : Int → ZMod p)) x =
        (prev : ZMod p) + (x - ((xj : Int) : ZMod p)) *
          hornerZ (cs.map (Int.cast : Int → ZMod p)) x
  | [], prev, x => by
    show hornerZ ([fadd p 0 prev].map (Int.cast : Int → ZMod p)) x = _
    simp only [List.map_nil, List.map_cons, hornerZ_nil, hornerZ_cons, cast_fadd]
    push_cast
    ring
  | c :: cs, prev, x => by
    show hornerZ ((fadd p (fadd p 0 prev) (fmul p c (fsub p 0 xj)) ::
      mulXsubGo p xj c cs).map (Int.cast : Int → ZMod p)) x = _
    simp only [List.map_cons, hornerZ_cons]
    rw [hornerZ_mulXsubGo p xj cs c x]
    simp only [cast_fadd, cast_fmul, cast_fsub]
    push_cast
    ring

theorem hornerZ_mulXsub (p : Nat) (xj : Int) (b : List Int) (x : ZMod p) :
    hornerZ ((mulXsub p xj b).map (Int.cast : Int → ZMod p)) x =
      (x - ((xj : Int) : ZMod p)) * hornerZ (b.map (Int.cast : Int → ZMod p)) x := by
  cases b with
  | nil =>
    show hornerZ ([(0 : Int)].map (Int.cast : Int → ZMod p)) x = _
    simp only [List.map_nil, List.map_cons, hornerZ_nil, hornerZ_cons]
    push_cast
    ring
  | cons b0 bs =>
    show hornerZ ((fadd p 0 (fmul p b0 (fsub p 0 xj)) ::
      mulXsubGo p xj b0 bs).map (Int.cast : Int → ZMod p)) x = _
    simp only [List.map_cons, hornerZ_cons]
    rw [hornerZ_mulXsubGo p xj bs b0 x]
    simp only [cast_fadd, cast_fmul, cast_fsub, List.map_cons, hornerZ_cons]
    push_cast
    ring

theorem hornerZ_scale (p : Nat) (d : Int) (b : List Int) (x : ZMod p) :
    hornerZ ((b.map (fun c => fmul p c d)).map (Int.cast : Int → ZMod p)) x =
      ((d : Int) : ZMod p) * hornerZ (b.map (Int.cast : Int → ZMod p)) x := by
  induction b with
  | nil =>
    simp only [List.map_nil, hornerZ_nil]
    ring
  | cons c cs ih =>
    simp only [List.map_cons, hornerZ_cons]
    rw [ih, cast_fmul]
    ring

theorem hornerZ_addInto (p : Nat) :
    ∀ (res basis : List Int), basis.length ≤ res.length → ∀ (x : ZMod p),
      hornerZ ((addInto p res basis).map (Int.cast : Int → ZMod p)) x =
        hornerZ (res.map (Int.cast : Int → ZMod p)) x +
          hornerZ (basis.map (Int.cast : Int → ZMod p)) x
  | res, [], _, x => by
    have hres : addInto p res [] = res := by cases res <;> rfl
    rw [hres]
    simp only [List.map_nil, hornerZ_nil]
    ring
  | [], b :: bs, h, x => by simp at h
  | r :: rs, b :: bs, h, x => by
    show hornerZ ((fadd p r b :: addInto p rs bs).map (Int.cast : Int → ZMod p)) x = _
    simp only [List.map_cons, hornerZ_cons]
    rw [hornerZ_addInto p rs bs (by simpa using h) x, cast_fadd]
    ring

theorem hornerZ_replicate (p n : Nat) (x : ZMod p) :
    hornerZ ((List.replicate n (0 : Int)).map (Int.cast : Int → ZMod p)) x = 0 := by
  induction n with
  | zero => rfl
  | succ n ih =>
    rw [List.replicate_succ]
    simp only [List.map_cons, hornerZ_cons]
    rw [ih]
    push_cast
    ring

theorem addInto_length (p : Nat) : ∀ res basis : List Int,
    (addInto p res basis).length = res.length
  | res, [] => by cases res <;> rfl
  | [], _ :: _ => rfl
  | r :: rs, b :: bs => by
    simp [addInto, addInto_length p rs bs]

theorem mulXsubGo_length (p : Nat) (xj : Int) :
    ∀ (cs : List Int) (prev : Int), (mulXsubGo p xj prev cs).length = cs.length + 1
  | [], _ => rfl
  | c :: cs, prev => by simp [mulXsubGo, mulXsubGo_length p xj cs c]

theorem mulXsub_length (p : Nat) (xj : Int) :
    ∀ b : List Int, (mulXsub p xj b).length = b.length + 1
  | [] => rfl
  | b0 :: bs => by simp [mulXsub, mulXsubGo_length]

theorem lagrangeStep_length (p : Nat) (pts : List (Int × Int)) (i : Nat)
    (basis : List Int) (j : Nat) :
    (lagrangeStep p pts i basis j).length =
      if i = j then basis.length else basis.length + 1 := by
  unfold lagrangeStep
  split
  · rfl
  · rw [List.length_map, mulXsub_length]

theorem lagrangeFold_length (p : Nat) (pts : List (Int × Int)) (i : Nat) :
    ∀ (J : List Nat) (b : List Int),
      (J.foldl (lagrangeStep p pts i) b).length =
        b.length + J.countP (fun j => decide (¬ i = j))
  | [], b => by simp
  | j :: J, b => by
    simp only [List.foldl_cons, List.countP_cons]
    rw [lagrangeFold_length p pts i J (lagrangeStep p pts i b j), lagrangeStep_length]
    by_cases h : i = j
    · simp [h]
    · simp only [h, if_neg, decide_not]
      simp [h]
      omega

theorem countP_ne_nodup (i : Nat) :
    ∀ (J : List Nat), J.Nodup →
      J.countP (fun j => decide (¬ i = j)) =
        if i ∈ J then J.length - 1 else J.length := by
  intro J
  induction J with
  | nil => intro _; simp
  | cons a J ih =>
    intro hnd
    have hndJ : J.Nodup := (List.nodup_cons.mp hnd).2
    have haJ : a ∉ J := (List.nodup_cons.mp hnd).1
    rw [List.countP_cons, ih hndJ]
    by_cases hia : i = a
    · subst hia
      have hiJ : i ∉ J := haJ
      simp [hiJ]
    · by_cases hiJ : i ∈ J
      · have hlen : 1 ≤ J.length := List.length_pos.mpr (List.ne_nil_of_mem hiJ)
        have hmem : i ∈ a :: J := List.mem_cons_of_mem a hiJ
        simp only [hiJ, if_pos, hmem, List.length_cons]
        simp [hia]
        omega
      · have hmem : i ∉ a :: J := by
          rw [List.mem_cons]
          push_neg
          exact ⟨hia, hiJ⟩
        simp only [hiJ, if_neg, hmem, List.length_cons]
        simp [hia]

theorem lagrangeBasis_length (p : Nat) (pts : List (Int × Int)) (i : Nat)
    (hi : i < pts.length) :
    (lagrangeBasis p pts i).length = pts.length := by
  unfold lagrangeBasis
  rw [lagrangeFold_length, countP_ne_nodup i (List.range pts.length) (List.nodup_range _)]
  rw [if_pos (List.mem_range.mpr hi)]
  simp only [List.length_range, List.length_cons, List.length_nil]
  omega

theorem hornerZ_lagrangeFold (p : Nat) (pts : List (Int × Int)) (i : Nat) (x : ZMod p) :
    ∀ (J : List Nat) (b : List Int),
      hornerZ ((J.foldl (lagrangeStep p pts i) b).map (Int.cast : Int → ZMod p)) x =
        hornerZ (b.map (Int.cast : Int → ZMod p)) x *
          (J.map (fun j => if i = j then (1 : ZMod p) else
            (x - (((pts.getD j (0, 0)).1 : Int) : ZMod p)) *
              ((finv p (fsub p (pts.getD i (0, 0)).1 (pts.getD j (0, 0)).1) : Int) :
                ZMod p))).prod
  | [], b => by simp
  | j :: J, b => by
    simp only [List.foldl_cons, List.map_cons, List.prod_cons]
    rw [hornerZ_lagrangeFold p pts i x J (lagrangeStep p pts i b j)]
    by_cases h : i = j
    · rw [if_pos h]
      unfold lagrangeStep
      rw [if_pos h]
      ring
    · rw [if_neg h]
      unfold lagrangeStep
      rw [if_neg h, hornerZ_scale, hornerZ_mulXsub]
      ring

theorem hornerZ_interpolate (p : Nat) (pts : List (Int × Int)) (x : ZMod p) :
    hornerZ ((interpolate p pts).map (Int.cast : Int → ZMod p)) x =
      ((List.range pts.length).map
        (fun i => hornerZ ((lagrangeBasis p pts i).map (Int.cast : Int → ZMod p)) x)).sum := by
  unfold interpolate
  have main : ∀ (J : List Nat) (res : List Int), res.length = pts.length →
      (∀ i ∈ J, i < pts.length) →
      hornerZ ((J.foldl (fun result i => addInto p result (lagrangeBasis p pts i)) res).map
        (Int.cast : Int → ZMod p)) x =
        hornerZ (res.map (Int.cast : Int → ZMod p)) x +
          (J.map (fun i =>
            hornerZ ((lagrangeBasis p pts i).map (Int.cast : Int → ZMod p)) x)).sum := by
    intro J
    induction J with
    | nil =>
      intro res _ _
      simp
    | cons i J ih =>
      intro res hres hmem
      simp only [List.foldl_cons, List.map_cons, List.sum_cons]
      rw [ih (addInto p res (lagrangeBasis p pts i))
        (by rw [addInto_length, hres])
        (fun k hk => hmem k (List.mem_cons_of_mem _ hk))]
      rw [hornerZ_addInto p res _
        (by rw [lagrangeBasis_length p pts i (hmem i (List.mem_cons_self _ _)), hres]) x]
      ring
  rw [main (List.range pts.length) (List.replicate pts.length 0) (by simp)
    (fun i hi => List.mem_range.mp hi)]
  rw [hornerZ_replicate]
  ring

theorem sum_map_eq_single {p : Nat} (f : Nat → ZMod p) :
    ∀ (l : List Nat), l.Nodup → ∀ (k : Nat), k ∈ l → (∀ i ∈ l, i ≠ k → f i = 0) →
      (l.map f).sum = f k := by
  intro l
  induction l with
  | nil =>
    intro _ k hk _
    simp at hk
  | cons a l ih =>
    intro hnd k hk hz
    simp only [List.map_cons, List.sum_cons]
    by_cases hak : a = k
    · subst hak
      have hrest : (l.map f).sum = 0 := by
        apply List.sum_eq_zero
        intro y hy
        rw [List.mem_map] at hy
        obtain ⟨i, hi, rfl⟩ := hy
        apply hz i (List.mem_cons_of_mem _ hi)
        intro he
        exact (List.nodup_cons.mp hnd).1 (he ▸ hi)
      rw [hrest]
      ring
    · have hkl : k ∈ l := by
        rcases List.mem_cons.mp hk with h | h
        · exact absurd h.symm hak
        · exact h
      rw [hz a (List.mem_cons_self _ _) hak,
        ih (List.nodup_cons.mp hnd).2 k hkl
          (fun i hi => hz i (List.mem_cons_of_mem _ hi))]
      ring

theorem intCast_injOn_range (p : Nat) (a b : Int) (ha0 : 0 ≤ a) (hap : a < p)
    (hb0 : 0 ≤ b) (hbp : b < p) (h : ((a : Int) : ZMod p) = ((b : Int) : ZMod p)) :
    a = b := by
  rw [ZMod.intCast_eq_intCast_iff'] at h
  rwa [Int.emod_eq_of_lt ha0 hap, Int.emod_eq_of_lt hb0 hbp] at h

/-! ## Claim C6: interpolation round trip -/

/-- C6: for every list of points with pairwise distinct x-coordinates in
`[0, p)` and y-coordinates in `[0, p)` (`p` prime), the polynomial returned
by `Polynomial.interpolate` evaluates at each `xᵢ` to the corresponding
`yᵢ`. -/
theorem claim_C6_interpolation_roundtrip (p : Nat) (hp : p.Prime)
    (pts : List (Int × Int))
    (hdist : pts.Pairwise (fun a b => a.1 ≠ b.1))
    (hx : ∀ q ∈ pts, 0 ≤ q.1 ∧ q.1 < p)
    (hy : ∀ q ∈ pts, 0 ≤ q.2 ∧ q.2 < p)
    (k : Nat) (hk : k < pts.length) :
    polyEval p (interpolate p pts) (pts.getD k (0, 0)).1 = (pts.getD k (0, 0)).2 := by
  haveI : Fact p.Prime := ⟨hp⟩
  have hp0 : 0 < p := hp.pos
  have hmemk : pts.getD k (0, 0) ∈ pts := by
    rw [List.getD_eq_getElem _ _ hk]
    exact List.getElem_mem _
  have hne : ∀ i, i < pts.length → i ≠ k →
      (((pts.getD k (0, 0)).1 : Int) : ZMod p) ≠ (((pts.getD i (0, 0)).1 : Int) : ZMod p) := by
    intro i hi hik hcontra
    have hmemi : pts.getD i (0, 0) ∈ pts := by
      rw [List.getD_eq_getElem _ _ hi]
      exact List.getElem_mem _
    have heq : (pts.getD k (0, 0)).1 = (pts.getD i (0, 0)).1 :=
      intCast_injOn_range p _ _ (hx _ hmemk).1 (hx _ hmemk).2 (hx _ hmemi).1
        (hx _ hmemi).2 hcontra
    have hpw := List.pairwise_iff_getElem.mp hdist
    rw [List.getD_eq_getElem _ _ hk, List.getD_eq_getElem _ _ hi] at heq
    rcases Nat.lt_or_ge k i with h | h
    · exact hpw k i hk hi h heq
    · exact hpw i k hi hk (by omega) heq.symm
  have hzeros : ∀ i ∈ List.range pts.length, i ≠ k →
      hornerZ ((lagrangeBasis p pts i).map (Int.cast : Int → ZMod p))
        (((pts.getD k (0, 0)).1 : Int) : ZMod p) = 0 := by
    intro i hi hik
    unfold lagrangeBasis
    rw [hornerZ_lagrangeFold]
    have hzero : ((List.range pts.length).map (fun j => if i = j then (1 : ZMod p) else
        ((((pts.getD k (0, 0)).1 : Int) : ZMod p) - (((pts.getD j (0, 0)).1 : Int) : ZMod p)) *
          ((finv p (fsub p (pts.getD i (0, 0)).1 (pts.getD j (0, 0)).1) : Int) :
            ZMod p))).prod = 0 := by
      apply List.prod_eq_zero
      rw [List.mem_map]
      refine ⟨k, List.mem_range.mpr hk, ?_⟩
      rw [if_neg hik, sub_self, zero_mul]
    rw [hzero]
    ring
  apply intCast_injOn_range p _ _ (polyEval_range p hp0 _ _).1 (polyEval_range p hp0 _ _).2
    (hy _ hmemk).1 (hy _ hmemk).2
  rw [cast_polyEval, hornerZ_interpolate]
  rw [sum_map_eq_single _ (List.range pts.length) (List.nodup_range _) k
    (List.mem_range.mpr hk) hzeros]
  unfold lagrangeBasis
  rw [hornerZ_lagrangeFold]
  have hbase : hornerZ ([(pts.getD k (0, 0)).2].map (Int.cast : Int → ZMod p))
      (((pts.getD k (0, 0)).1 : Int) : ZMod p) = (((pts.getD k (0, 0)).2 : Int) : ZMod p) := by
    simp only [List.map_cons, List.map_nil, hornerZ_cons, hornerZ_nil]
    ring
  rw [hbase]
  have hprod : ((List.range pts.length).map (fun j => if k = j then (1 : ZMod p) else
      ((((pts.getD k (0, 0)).1 : Int) : ZMod p) - (((pts.getD j (0, 0)).1 : Int) : ZMod p)) *
        ((finv p (fsub p (pts.getD k (0, 0)).1 (pts.getD j (0, 0)).1) : Int) :
          ZMod p))).prod = 1 := by
    apply List.prod_eq_one
    intro t ht
    rw [List.mem_map] at ht
    obtain ⟨j, hjmem, rfl⟩ := ht
    by_cases hkj : k = j
    · rw [if_pos hkj]
    · rw [if_neg hkj]
      have hj : j < pts.length := List.mem_range.mp hjmem
      have hdne : (((pts.getD k (0, 0)).1 : Int) : ZMod p) -
          (((pts.getD j (0, 0)).1 : Int) : ZMod p) ≠ 0 := by
        rw [sub_ne_zero]
        exact hne j hj (fun h => hkj h.symm)
      rw [cast_finv, cast_fsub, ← pow_succ']
      have he : p - 2 + 1 = p - 1 := by
        have := hp.two_le
        omega
      rw [he]
      exact ZMod.pow_card_sub_one_eq_one hdne
  rw [hprod]
  ring

/-- Witness for C6: `p = 5`, points `[(0,3), (1,4), (2,0)]`, node index 1. -/
theorem claim_C6_witness :
    Nat.Prime 5 ∧
    ([((0 : Int), (3 : Int)), (1, 4), (2, 0)] : List (Int × Int)).Pairwise
      (fun a b => a.1 ≠ b.1) ∧
    polyEval 5 (interpolate 5 [((0 : Int), (3 : Int)), (1, 4), (2, 0)])
      (([((0 : Int), (3 : Int)), (1, 4), (2, 0)] : List (Int × Int)).getD 1 (0, 0)).1 =
      (([((0 : Int), (3 : Int)), (1, 4), (2, 0)] : List (Int × Int)).getD 1 (0, 0)).2 :=
  ⟨by norm_num, by decide,
   claim_C6_interpolation_roundtrip 5 (by norm_num) [((0 : Int), (3 : Int)), (1, 4), (2, 0)]
     (by decide) (by decide) (by decide) 1 (by decide)⟩

/-! ## Claim C5: Merkle round trip -/

/-- C5: for every nonempty list of byte-string leaves and every index
`i < L`, building the tree and then checking
`MerkleTree.verify(leaves[i], i, tree.prove(i), tree.root())` yields true. -/
theorem claim_C5_merkle_roundtrip (sha : List Nat → List Nat)
    (leaves : List (List Nat)) (hne : leaves ≠ []) (i : Nat) (hi : i < leaves.length) :
    merkleVerify sha (leaves.getD i []) i (merkleProve sha leaves i)
      (merkleRoot sha leaves) = true :=
  merkle_roundtrip sha leaves i hi

/-- Witness for C5 at a concrete three-leaf tree, odd index 2 (the
duplicated-sibling case), and a concrete hash function. -/
theorem claim_C5_witness :
    ([[1], [2], [3]] : List (List Nat)) ≠ [] ∧ 2 < ([[1], [2], [3]] : List (List Nat)).length ∧
      merkleVerify shaToy (([[1], [2], [3]] : List (List Nat)).getD 2 []) 2
        (merkleProve shaToy [[1], [2], [3]] 2) (merkleRoot shaToy [[1], [2], [3]]) = true :=
  ⟨by decide, by decide, claim_C5_merkle_roundtrip shaToy [[1], [2], [3]] (by decide) 2 (by decide)⟩

/-! ## Claim C10: `MerkleTree.verify` ignores its index argument -/

/-- C10: `MerkleTree.verify` never reads the claimed index; only the
`is_left` flags inside the proof influence the result. -/
theorem claim_C10_verify_index_independent (sha : List Nat → List Nat) (leaf : List Nat)
    (i j : Nat) (proof : List (List Nat × Bool)) (root : List Nat) :
    merkleVerify sha leaf i proof root = merkleVerify sha leaf j proof root := rfl

/-! ## Claim C8: `FiniteField.inv` at zero, ranges, inverses -/

/-- C8 counterexample: `FiniteField.inv(0)` does not fail - Python's
`pow(0, p - 2, p)` returns `0` - and the returned value is not a
multiplicative inverse. -/
theorem claim_C8_counterexample :
    finv starkPrime 0 = 0 ∧ fmul starkPrime 0 (finv starkPrime 0) ≠ 1 := by
  have h0 : finv starkPrime 0 = 0 := by
    unfold finv fpow
    rw [zero_pow (by norm_num [starkPrime])]
    norm_num
  refine ⟨h0, ?_⟩
  rw [h0]
  unfold fmul
  norm_num

/-- C8 (amended): `inv(0)` returns a value rather than failing (`0` whenever
`p > 2`, since Python computes `pow(0, p - 2, p)`); for every prime `p`, all
of `add`, `sub`, `mul`, `inv` return values in `[0, p)`, and for every `a`
with `0 < a < p`, `mul(a, inv(a)) = 1`. -/
theorem claim_C8_field_ops (p : Nat) (hp : p.Prime) (a b : Int) (ha0 : 0 < a) (hap : a < p) :
    (2 < p → finv p 0 = 0) ∧
    (0 ≤ fadd p a b ∧ fadd p a b < p) ∧
    (0 ≤ fsub p a b ∧ fsub p a b < p) ∧
    (0 ≤ fmul p a b ∧ fmul p a b < p) ∧
    (0 ≤ finv p a ∧ finv p a < p) ∧
    fmul p a (finv p a) = 1 := by
  have hpos := hp.pos
  refine ⟨?_, emod_range p hpos _, emod_range p hpos _, emod_range p hpos _,
    emod_range p hpos _, fmul_finv_eq_one p hp a ha0 hap⟩
  intro hp2
  unfold finv fpow
  rw [zero_pow (by omega)]
  norm_num

/-- Witness for C8 at `p = 5`, `a = 2`, `b = 3`; in particular
`inv(2) = 2^3 mod 5 = 3` and `2 * 3 mod 5 = 1`. -/
theorem claim_C8_witness :
    Nat.Prime 5 ∧ (0 : Int) < 2 ∧ (2 : Int) < 5 ∧ fmul 5 2 (finv 5 2) = 1 :=
  ⟨by norm_num, by norm_num, by norm_num,
    (claim_C8_field_ops 5 (by norm_num) 2 3 (by norm_num) (by norm_num)).2.2.2.2.2⟩

/-! ## Claim C9: interpolation with duplicate x-coordinates -/

/-- C9 counterexample: `Polynomial.interpolate` does not fail on duplicate
x-coordinates - it returns a (garbage) polynomial.  With `inv(0) = 0` both
basis polynomials collapse to zero: `interpolate([(1,2),(1,3)]) = [0, 0]`,
which does not even pass through the input points. -/
theorem claim_C9_counterexample :
    interpolate 97 [(1, 2), (1, 3)] = [0, 0] ∧
      polyEval 97 (interpolate 97 [(1, 2), (1, 3)]) 1 = 0 ∧ (0 : Int) ≠ 2 :=
  ⟨by decide, by decide, by decide⟩

theorem everyOther_length {α : Type} : ∀ l : List α, (everyOther l).length = (l.length + 1) / 2
  | [] => by simp [everyOther]
  | [_] => by simp [everyOther]
  | _ :: _ :: rest => by
    simp [everyOther, everyOther_length rest]
    omega

theorem commitPhaseGo_stop (p Q : Nat) (sha : List Nat → List Nat) :
    ∀ (f : Nat) (coeffs domain : List Int),
      ¬ (Q < domain.length ∧ 2 ≤ domain.length) →
      commitPhaseGo p Q sha f coeffs domain = ([], [])
  | 0, _, _, _ => rfl
  | f + 1, coeffs, domain, h => by simp [commitPhaseGo, h]

theorem commitPhaseGo_irrel (p Q : Nat) (sha : List Nat → List Nat) :
    ∀ (f g : Nat) (coeffs domain : List Int), domain.length ≤ f → domain.length ≤ g →
      commitPhaseGo p Q sha f coeffs domain = commitPhaseGo p Q sha g coeffs domain := by
  intro f
  induction f with
  | zero =>
    intro g coeffs domain hf hg
    have h1 : ¬ (Q < domain.length ∧ 2 ≤ domain.length) := by omega
    rw [commitPhaseGo_stop p Q sha 0 coeffs domain h1,
      commitPhaseGo_stop p Q sha g coeffs domain h1]
  | succ f ih =>
    intro g coeffs domain hf hg
    by_cases hs : Q < domain.length ∧ 2 ≤ domain.length
    · cases g with
      | zero => omega
      | succ g =>
        simp only [commitPhaseGo, if_pos hs]
        have hnext : (everyOther domain).length ≤ f := by
          rw [everyOther_length]; omega
        have hnext2 : (everyOther domain).length ≤ g := by
          rw [everyOther_length]; omega
        rw [ih g _ (everyOther domain) hnext hnext2]
    · rw [commitPhaseGo_stop p Q sha _ coeffs domain hs,
        commitPhaseGo_stop p Q sha g coeffs domain hs]

/-- The natural unfolding of `commitPhase` (the Python loop shape). -/
theorem commitPhase_eq (p Q : Nat) (sha : List Nat → List Nat)
    (coeffs domain : List Int) :
    commitPhase p Q sha coeffs domain =
      if Q < domain.length ∧ 2 ≤ domain.length then
        (((domain.map (polyEval p coeffs)).map decimalBytes) ::
          (commitPhase p Q sha
            (foldPoly p
              ((digestToNat (sha (merkleRoot sha ((domain.map (polyEval p coeffs)).map decimalBytes))) % p : Nat))
              coeffs)
            (everyOther domain)).1,
         (foldPoly p
           ((digestToNat (sha (merkleRoot sha ((domain.map (polyEval p coeffs)).map decimalBytes))) % p : Nat))
           coeffs) ::
          (commitPhase p Q sha
            (foldPoly p
              ((digestToNat (sha (merkleRoot sha ((domain.map (polyEval p coeffs)).map decimalBytes))) % p : Nat))
              coeffs)
            (everyOther domain)).2)
      else ([], []) := by
  unfold commitPhase
  by_cases hs : Q < domain.length ∧ 2 ≤ domain.length
  · rw [if_pos hs]
    obtain ⟨f, hf⟩ : ∃ f, domain.length = f + 1 := ⟨domain.length - 1, by omega⟩
    rw [hf]
    simp only [commitPhaseGo, if_pos hs]
    have hnext : (everyOther domain).length ≤ f := by
      rw [everyOther_length]; omega
    rw [commitPhaseGo_irrel p Q sha f (everyOther domain).length _ (everyOther domain) hnext
      (Nat.le_refl _)]
  · rw [if_neg hs, commitPhaseGo_stop p Q sha _ coeffs domain hs]

example :
    (genProof 97 ⟨4, 2, 2, 16, 20⟩ shaToy [("threshold", 21)] [("secret_value", 42)]).isSome = true := by
  decide

example :
    verifyProof shaToy 2
      (genProofBody 97 ⟨4, 2, 2, 16, 20⟩ shaToy [("threshold", 21)] [("secret_value", 42)])
      [("threshold", 99)] = true := by
  decide

/-! ## Completeness machinery -/

theorem genTraceGo_length (p : Nat) : ∀ (n : Nat) (c : Int), (genTraceGo p n c).length = n
  | 0, _ => rfl
  | n + 1, c => by simp [genTraceGo, genTraceGo_length p n]

theorem genTrace_length (p len : Nat) (secret : Int) : (genTrace p len secret).length = len :=
  genTraceGo_length p len _

theorem foldCombineTail_length (p : Nat) (ch : Int) :
    ∀ os : List Int, (foldCombineTail p ch os).length = os.length
  | [] => rfl
  | _ :: os => by simp [foldCombineTail, foldCombineTail_length p ch os]

theorem foldCombine_length (p : Nat) (ch : Int) :
    ∀ es os : List Int, (foldCombine p ch es os).length = max es.length os.length
  | [], os => by simp [foldCombine, foldCombineTail_length]
  | e :: es, [] => by
    simp [foldCombine, foldCombine_length p ch es []]
  | e :: es, o :: os => by
    simp [foldCombine, foldCombine_length p ch es os]
    omega

theorem foldPoly_length (p : Nat) (ch : Int) (coeffs : List Int) :
    (foldPoly p ch coeffs).length = (coeffs.length + 1) / 2 := by
  unfold foldPoly
  rw [foldCombine_length, everyOther_length, everyOther_length, List.length_drop]
  omega

/-- First projection of the `commitPhase` unfolding. -/
theorem commitPhase_fst (p Q : Nat) (sha : List Nat → List Nat)
    (coeffs domain : List Int) :
    (commitPhase p Q sha coeffs domain).1 =
      if Q < domain.length ∧ 2 ≤ domain.length then
        ((domain.map (polyEval p coeffs)).map decimalBytes) ::
          (commitPhase p Q sha
            (foldPoly p
              ((digestToNat (sha (merkleRoot sha ((domain.map (polyEval p coeffs)).map decimalBytes))) % p : Nat))
              coeffs)
            (everyOther domain)).1
      else [] := by
  rw [commitPhase_eq]
  split <;> rfl

/-- Second projection of the `commitPhase` unfolding. -/
theorem commitPhase_snd (p Q : Nat) (sha : List Nat → List Nat)
    (coeffs domain : List Int) :
    (commitPhase p Q sha coeffs domain).2 =
      if Q < domain.length ∧ 2 ≤ domain.length then
        (foldPoly p
          ((digestToNat (sha (merkleRoot sha ((domain.map (polyEval p coeffs)).map decimalBytes))) % p : Nat))
          coeffs) ::
          (commitPhase p Q sha
            (foldPoly p
              ((digestToNat (sha (merkleRoot sha ((domain.map (polyEval p coeffs)).map decimalBytes))) % p : Nat))
              coeffs)
            (everyOther domain)).2
      else [] := by
  rw [commitPhase_eq]
  split <;> rfl

/-- The final FRI polynomial (`fri_polynomials[-1]`) has at most `Q`
coefficients whenever `Q ≥ 1` and the initial coefficient count is at most
the domain size. -/
theorem commit_final_length (p Q : Nat) (sha : List Nat → List Nat) (hQ : 1 ≤ Q) :
    ∀ (n : Nat) (coeffs domain : List Int), domain.length = n →
      coeffs.length ≤ domain.length →
      ((coeffs :: (commitPhase p Q sha coeffs domain).2).getLastD []).length ≤ Q := by
  intro n
  induction n using Nat.strong_induction_on with
  | _ n ih =>
    intro coeffs domain hn hcd
    rw [commitPhase_snd]
    by_cases hs : Q < domain.length ∧ 2 ≤ domain.length
    · rw [if_pos hs]
      have hlt : (everyOther domain).length < n := by
        rw [everyOther_length]; omega
      have hrec := ih (everyOther domain).length hlt
        (foldPoly p
          ((digestToNat (sha (merkleRoot sha ((domain.map (polyEval p coeffs)).map decimalBytes))) % p : Nat))
          coeffs)
        (everyOther domain) rfl
        (by rw [foldPoly_length, everyOther_length]; omega)
      rw [List.getLastD_cons] at hrec
      rw [List.getLastD_cons, List.getLastD_cons]
      exact hrec
    · rw [if_neg hs]
      simp only [List.getLastD_cons, List.getLastD_nil]
      omega

/-- Every (halved) query index stays inside the corresponding FRI layer's
leaf list. -/
theorem commit_tree_index_bound (p Q : Nat) (sha : List Nat → List Nat) :
    ∀ (n : Nat) (coeffs domain : List Int), domain.length = n →
      ∀ (idx : Nat), idx < domain.length →
      ∀ (k : Nat), k < (commitPhase p Q sha coeffs domain).1.length →
        idx / 2 ^ k < ((commitPhase p Q sha coeffs domain).1.getD k []).length := by
  intro n
  induction n using Nat.strong_induction_on with
  | _ n ih =>
    intro coeffs domain hn idx hidx k hk
    rw [commitPhase_fst] at hk ⊢
    by_cases hs : Q < domain.length ∧ 2 ≤ domain.length
    · rw [if_pos hs] at hk ⊢
      cases k with
      | zero =>
        simp only [List.getD_cons_zero, pow_zero, Nat.div_one]
        simpa using hidx
      | succ k =>
        simp only [List.getD_cons_succ]
        have hlt : (everyOther domain).length < n := by
          rw [everyOther_length]; omega
        have hidx2 : idx / 2 < (everyOther domain).length := by
          rw [everyOther_length]; omega
        have hk2 : k < (commitPhase p Q sha
            (foldPoly p
              ((digestToNat (sha (merkleRoot sha ((domain.map (polyEval p coeffs)).map decimalBytes))) % p : Nat))
              coeffs)
            (everyOther domain)).1.length := by
          simp only [List.length_cons] at hk
          omega
        have hrec := ih (everyOther domain).length hlt
          (foldPoly p
            ((digestToNat (sha (merkleRoot sha ((domain.map (polyEval p coeffs)).map decimalBytes))) % p : Nat))
            coeffs)
          (everyOther domain) rfl (idx / 2) hidx2 k hk2
        have hdiv : idx / 2 / 2 ^ k = idx / 2 ^ (k + 1) := by
          rw [Nat.div_div_eq_div_mul, pow_succ, Nat.mul_comm]
        rwa [hdiv] at hrec
    · rw [if_neg hs] at hk
      simp at hk

theorem getD_map_merkleRoot (sha : List Nat → List Nat) (l : List (List (List Nat)))
    (k : Nat) (hk : k < l.length) :
    (l.map (merkleRoot sha)).getD k [] = merkleRoot sha (l.getD k []) := by
  rw [List.getD_eq_getElem _ _ (by simpa using hk), List.getD_eq_getElem _ _ hk,
    List.getElem_map]

/-- The verifier's layer loop accepts the prover's query layers: at every
layer the opened leaf, the halved index and the recorded root line up, and
the Merkle round trip closes each check. -/
theorem checkLayers_queryLayers (sha : List Nat → List Nat) :
    ∀ (trees : List (List (List Nat))) (roots : List (List Nat)) (r idx0 idxr : Nat),
      roots.length = r + trees.length →
      (∀ k, k < trees.length → roots.getD (r + k) [] = merkleRoot sha (trees.getD k [])) →
      (∀ k, k < trees.length → idx0 / 2 ^ (r + k) < (trees.getD k []).length) →
      idx0 / 2 ^ r = idxr →
      checkLayers sha roots idx0 r (queryLayers sha trees idxr) = true := by
  intro trees
  induction trees with
  | nil =>
    intro roots r idx0 idxr _ _ _ _
    rfl
  | cons leaves rest ih =>
    intro roots r idx0 idxr hlen hroots hbound hidx
    have h0 : idxr < leaves.length := by
      have hb := hbound 0 (by simp)
      rw [Nat.add_zero] at hb
      rw [← hidx]
      simpa using hb
    rw [queryLayers, if_pos h0, List.singleton_append]
    simp only [checkLayers]
    have hr : r < roots.length := by
      simp only [List.length_cons] at hlen
      omega
    rw [if_pos hr]
    have hroot0 : roots.getD r [] = merkleRoot sha leaves := by
      have := hroots 0 (by simp)
      rw [Nat.add_zero] at this
      simpa using this
    rw [hroot0, hidx]
    have hfirst : merkleVerify sha (leaves.getD idxr []) idxr (merkleProve sha leaves idxr)
        (merkleRoot sha leaves) = true := merkle_roundtrip sha leaves idxr h0
    rw [hfirst]
    have hrest : checkLayers sha roots idx0 (r + 1) (queryLayers sha rest (idxr / 2)) = true := by
      apply ih roots (r + 1) idx0 (idxr / 2)
      · simp only [List.length_cons] at hlen
        omega
      · intro k hk
        have := hroots (k + 1) (by simpa using Nat.succ_lt_succ hk)
        have he : r + (k + 1) = r + 1 + k := by omega
        rw [he] at this
        simpa using this
      · intro k hk
        have := hbound (k + 1) (by simpa using Nat.succ_lt_succ hk)
        have he : r + (k + 1) = r + 1 + k := by omega
        rw [he] at this
        simpa using this
      · rw [← hidx, pow_succ, ← Nat.div_div_eq_div_mul]
    rw [hrest]
    rfl

theorem genTraceGo_step (p : Nat) :
    ∀ (n : Nat) (c : Int) (i : Nat), i + 1 < n →
      (genTraceGo p n c).getD (i + 1) 0 = fadd p ((genTraceGo p n c).getD i 0) 1
  | 0, _, _, h => by omega
  | 1, _, _, h => by omega
  | n + 2, c, 0, _ => by
    simp only [genTraceGo, List.getD_cons_succ, List.getD_cons_zero]
  | n + 2, c, i + 1, h => by
    simp only [genTraceGo, List.getD_cons_succ]
    exact genTraceGo_step p (n + 1) (fadd p c 1) i (by omega)

/-- The trace generated by `generate_execution_trace` always satisfies the
AIR: the transition holds by construction and the boundary constraints are
read off the trace itself. -/
theorem airEvaluate_genTrace (p T : Nat) (s : Int) :
    airEvaluate p (genTrace p T s) = true := by
  unfold airEvaluate
  rw [Bool.and_eq_true]
  constructor
  · rw [List.all_eq_true]
    intro i hi
    rw [List.mem_range] at hi
    have hstep : (genTrace p T s).getD (i + 1) 0 = fadd p ((genTrace p T s).getD i 0) 1 := by
      apply genTraceGo_step
      rw [genTrace_length] at hi
      omega
    rw [hstep]
    unfold transitionConstraint fsub
    rw [Int.sub_self, Int.zero_emod]
    rfl
  · rw [List.all_eq_true]
    intro c hc
    have hval : (genTrace p T s).getD c.1 0 = c.2 := by
      simp only [boundaryConstraints, List.mem_append] at hc
      rcases hc with h | h
      · split at h
        · simp only [List.mem_singleton] at h
          rw [h]
        · simp at h
      · split at h
        · simp only [List.mem_singleton] at h
          rw [h]
        · simp at h
    rw [hval]
    simp

/-! ## Claim C3: vacuous acceptance by `verify_proof` -/

/-- C3: a record with empty `fri_roots` and `query_responses`, a final
polynomial of at most `num_queries = 40` coefficients and `air_satisfied`
set is accepted by `verify_proof` for every statement: no Merkle
verification is ever performed. -/
theorem claim_C3_vacuous_accept (sha : List Nat → List Nat)
    (stmt : List (String × Int)) (pr : ProofRecord)
    (hroots : pr.fri_roots = []) (hq : pr.query_responses = [])
    (hlen : pr.fri_final_polynomial.length ≤ defaultConfig.num_queries)
    (hair : pr.air_satisfied = true) :
    verifyProof sha defaultConfig.num_queries pr stmt = true := by
  unfold verifyProof merkleChecksPass
  rw [hq, hair]
  simp [hlen]

/-- Witness for C3: a concrete empty proof object accepted against a
concrete statement it was never generated for. -/
theorem claim_C3_witness :
    verifyProof shaToy defaultConfig.num_queries
      ⟨1024, 8192, 8, [], [], [], [], starkPrime, 20, true, [], 0⟩
      [("claim", 0), ("threshold", 99)] = true :=
  claim_C3_vacuous_accept shaToy [("claim", 0), ("threshold", 99)]
    ⟨1024, 8192, 8, [], [], [], [], starkPrime, 20, true, [], 0⟩
    rfl rfl (by decide) rfl

/-! ## Claim C4: degree-bound rejection -/

/-- C4: a proof object that passes the Merkle-opening stage but whose final
FRI polynomial has more than `num_queries = 40` coefficients is rejected;
with at most 40 coefficients the degree check passes and the outcome is
decided by the remaining checks alone. -/
theorem claim_C4_degree_bound (sha : List Nat → List Nat) (pr : ProofRecord)
    (stmt : List (String × Int)) :
    (merkleChecksPass sha pr = true →
      defaultConfig.num_queries < pr.fri_final_polynomial.length →
      verifyProof sha defaultConfig.num_queries pr stmt = false) ∧
    (pr.fri_final_polynomial.length ≤ defaultConfig.num_queries →
      verifyProof sha defaultConfig.num_queries pr stmt =
        (merkleChecksPass sha pr && pr.air_satisfied)) := by
  constructor
  · intro hm hlen
    have hnot : ¬ (pr.fri_final_polynomial.length ≤ defaultConfig.num_queries) := by omega
    simp [verifyProof, hm, hnot]
  · intro hlen
    simp [verifyProof, hlen]

/-- Witness for C4: a concrete proof object with a 41-coefficient final
polynomial (and vacuously passing Merkle checks) is rejected. -/
theorem claim_C4_witness :
    merkleChecksPass shaToy
        ⟨1024, 8192, 8, [], [], List.replicate 41 0, [], starkPrime, 20, true, [], 0⟩ = true ∧
    defaultConfig.num_queries <
      (List.replicate (41 : Nat) (0 : Int)).length ∧
    verifyProof shaToy defaultConfig.num_queries
      ⟨1024, 8192, 8, [], [], List.replicate 41 0, [], starkPrime, 20, true, [], 0⟩ [] = false :=
  ⟨rfl, by decide,
    (claim_C4_degree_bound shaToy
      ⟨1024, 8192, 8, [], [], List.replicate 41 0, [], starkPrime, 20, true, [], 0⟩ []).1
      rfl (by decide)⟩

theorem interpolate_length (p : Nat) (pts : List (Int × Int)) :
    (interpolate p pts).length = pts.length := by
  unfold interpolate
  have main : ∀ (l : List Nat) (start : List Int),
      (l.foldl (fun result i => addInto p result (lagrangeBasis p pts i)) start).length =
        start.length := by
    intro l
    induction l with
    | nil => intro start; rfl
    | cons j js ih =>
      intro start
      simp only [List.foldl_cons]
      rw [ih, addInto_length]
  rw [main, List.length_replicate]

/-- C9 (amended): interpolation never raises on duplicate x-coordinates;
it always returns a coefficient list of length equal to the number of input
points (with duplicate x-coordinates the result is meaningless, see the
counterexample). -/
theorem claim_C9_interpolate_total (p : Nat) (pts : List (Int × Int)) :
    (interpolate p pts).length = pts.length :=
  interpolate_length p pts

/-! ## Completeness of the prover against the verifier -/

theorem proverDomain_length (p : Nat) (cfg : STARKConfig) (wit : List (String × Int)) :
    (proverDomain p cfg wit).length = cfg.trace_length := by
  unfold proverDomain proverTrace
  rw [List.length_map, List.length_range, genTrace_length]

theorem proverExtDomain_length (p : Nat) (cfg : STARKConfig) (wit : List (String × Int)) :
    (proverExtDomain p cfg wit).length = cfg.trace_length * cfg.blowup_factor := by
  unfold proverExtDomain
  rw [List.length_map, List.length_range]
  unfold proverExtSize
  rw [proverDomain_length]

theorem proverExtEvals_length (p : Nat) (cfg : STARKConfig) (wit : List (String × Int)) :
    (proverExtEvals p cfg wit).length = cfg.trace_length * cfg.blowup_factor := by
  unfold proverExtEvals evaluateDomain
  rw [List.length_map, proverExtDomain_length]

theorem proverTracePoly_length (p : Nat) (cfg : STARKConfig) (wit : List (String × Int)) :
    (proverTracePoly p cfg wit).length = cfg.trace_length := by
  unfold proverTracePoly
  rw [interpolate_length, List.length_zip, proverDomain_length]
  unfold proverTrace
  rw [genTrace_length, Nat.min_self]

/-- Completeness workhorse: for every prime size, configuration with
positive trace length, blowup factor and query count, and every hash
function, statement and witness, the proof built by the prover pipeline is
accepted by `verify_proof` against EVERY statement (the verifier never
reads its statement argument). -/
theorem verify_genProofBody (p : Nat) (cfg : STARKConfig) (sha : List Nat → List Nat)
    (stmt wit stmt2 : List (String × Int))
    (hT : 1 ≤ cfg.trace_length) (hB : 1 ≤ cfg.blowup_factor) (hQ : 1 ≤ cfg.num_queries) :
    verifyProof sha cfg.num_queries (genProofBody p cfg sha stmt wit) stmt2 = true := by
  have hextpos : 0 < (proverExtEvals p cfg wit).length := by
    rw [proverExtEvals_length]
    exact Nat.mul_pos (by omega) (by omega)
  unfold verifyProof
  rw [Bool.and_eq_true, Bool.and_eq_true]
  refine ⟨⟨?_, ?_⟩, rfl⟩
  · show merkleChecksPass sha (genProofBody p cfg sha stmt wit) = true
    unfold merkleChecksPass
    show (queryPhase sha (proverFriPair p cfg sha wit).1
        (proverQueryIndices p cfg sha wit)).all
      (checkQuery sha ((proverFriPair p cfg sha wit).1.map (merkleRoot sha))) = true
    rw [List.all_eq_true]
    intro q hq
    unfold queryPhase at hq
    rw [List.mem_map] at hq
    obtain ⟨qi, hqi, rfl⟩ := hq
    unfold proverQueryIndices at hqi
    rw [List.mem_map] at hqi
    obtain ⟨i, hi, rfl⟩ := hqi
    have hqlt : digestToNat (sha (proverSeed p cfg sha wit ++ [95] ++
        decimalBytes (Int.ofNat i))) % (proverExtEvals p cfg wit).length <
        (proverExtDomain p cfg wit).length := by
      rw [proverExtDomain_length, ← proverExtEvals_length p cfg wit]
      exact Nat.mod_lt _ hextpos
    unfold checkQuery
    apply checkLayers_queryLayers
    · rw [List.length_map, Nat.zero_add]
    · intro k hk
      rw [Nat.zero_add]
      exact getD_map_merkleRoot sha _ k hk
    · intro k hk
      rw [Nat.zero_add]
      exact commit_tree_index_bound p cfg.num_queries sha
        (proverExtDomain p cfg wit).length (proverTracePoly p cfg wit)
        (proverExtDomain p cfg wit) rfl _ hqlt k hk
    · rw [pow_zero, Nat.div_one]
  · rw [decide_eq_true_eq]
    show ((proverTracePoly p cfg wit :: (proverFriPair p cfg sha wit).2).getLastD []).length ≤
      cfg.num_queries
    unfold proverFriPair
    apply commit_final_length p cfg.num_queries sha hQ
      (proverExtDomain p cfg wit).length _ _ rfl
    rw [proverTracePoly_length, proverExtDomain_length]
    exact Nat.le_mul_of_pos_right cfg.trace_length (by omega)

/-! ## Claim C7: witness mapping and public output -/

theorem genTraceGo_last (p : Nat) :
    ∀ (n : Nat) (c d : Int), c % (p : Int) = c →
      (genTraceGo p (n + 1) c).getLastD d = (c + n) % (p : Int)
  | 0, c, d, hc => by
    show [c].getLastD d = _
    simpa using hc.symm
  | n + 1, c, d, hc => by
    show (c :: genTraceGo p (n + 1) (fadd p c 1)).getLastD d = _
    rw [List.getLastD_cons]
    have hc' : fadd p c 1 % (p : Int) = fadd p c 1 := Int.emod_emod_of_dvd _ dvd_rfl
    rw [genTraceGo_last p n (fadd p c 1) c hc']
    unfold fadd
    rw [Int.emod_add_emod]
    congr 1
    push_cast
    ring

/-- C7 counterexample: the prover does NOT read `witness['secret']`.  For
the witness `{secret: 7}`, the extracted secret is the default `42` and the
trace starts at `42`, not `7`. -/
theorem claim_C7_counterexample :
    extractSecret [("secret", 7)] = 42 ∧ (42 : Int) ≠ 7 ∧
    (genTrace starkPrime 1024 (extractSecret [("secret", 7)])).getD 0 0 = 42 := by
  refine ⟨by decide, by decide, ?_⟩
  show (genTraceGo starkPrime 1024 ((42 : Int) % (starkPrime : Int))).getD 0 0 = 42
  decide

/-- C7 (amended): the prover reads `witness['secret_value']`, falling back
to `witness['age']` and then to the literal `42` (the key `secret` is never
consulted) as `s`; the trace starts at `s mod P` and steps by
`trace[i+1] = trace[i] + 1`; the emitted `public_output` is
`trace[T-1] = (s mod P + 1023) mod P` for the configured `T = 1024`. -/
theorem claim_C7_amended (sha : List Nat → List Nat) (stmt wit : List (String × Int)) :
    extractSecret wit = dictGet wit "secret_value" (dictGet wit "age" 42) ∧
    (genTrace starkPrime 1024 (extractSecret wit)).getD 0 0 =
      (extractSecret wit) % (starkPrime : Int) ∧
    (∀ i, i + 1 < 1024 →
      (genTrace starkPrime 1024 (extractSecret wit)).getD (i + 1) 0 =
        fadd starkPrime ((genTrace starkPrime 1024 (extractSecret wit)).getD i 0) 1) ∧
    (genProofBody starkPrime defaultConfig sha stmt wit).public_output =
      ((extractSecret wit) % (starkPrime : Int) + 1023) % (starkPrime : Int) := by
  refine ⟨rfl, rfl, ?_, ?_⟩
  · intro i hi
    exact genTraceGo_step starkPrime 1024 _ i hi
  · show (proverTrace starkPrime defaultConfig wit).getLastD 0 = _
    unfold proverTrace genTrace
    have h1024 : defaultConfig.trace_length = 1023 + 1 := rfl
    rw [h1024, genTraceGo_last starkPrime 1023 _ 0 (Int.emod_emod_of_dvd _ dvd_rfl)]
    norm_num

/-- Witness for C7 (amended) at the witness `{secret: 7}`: the transition
at step 0 and the public-output formula, with the step hypothesis
discharged concretely. -/
theorem claim_C7_amended_witness :
    (0 : Nat) + 1 < 1024 ∧
    (genTrace starkPrime 1024 (extractSecret [("secret", 7)])).getD 1 0 =
      fadd starkPrime ((genTrace starkPrime 1024 (extractSecret [("secret", 7)])).getD 0 0) 1 ∧
    (genProofBody starkPrime defaultConfig shaToy [] [("secret", 7)]).public_output =
      ((extractSecret [("secret", 7)]) % (starkPrime : Int) + 1023) % (starkPrime : Int) :=
  ⟨by decide,
   (claim_C7_amended shaToy [] [("secret", 7)]).2.2.1 0 (by decide),
   (claim_C7_amended shaToy [] [("secret", 7)]).2.2.2⟩

/-! ## Claim C1: completeness -/

/-- C1: whenever the generated execution trace satisfies the AIR
constraints (which it always does, `airEvaluate_genTrace`), `generate_proof`
succeeds and the resulting proof verifies against the same statement. -/
theorem claim_C1_completeness (sha : List Nat → List Nat)
    (stmt wit : List (String × Int))
    (hair : airEvaluate starkPrime
      (genTrace starkPrime defaultConfig.trace_length (extractSecret wit)) = true) :
    genProof starkPrime defaultConfig sha stmt wit =
      some (genProofBody starkPrime defaultConfig sha stmt wit) ∧
    verifyProof sha defaultConfig.num_queries
      (genProofBody starkPrime defaultConfig sha stmt wit) stmt = true := by
  constructor
  · unfold genProof
    rw [if_pos hair]
  · exact verify_genProofBody starkPrime defaultConfig sha stmt wit stmt
      (by decide) (by decide) (by decide)

/-- Witness for C1 at the S1 scenario (`threshold 21`, `secret_value 42`)
and a concrete hash function; the AIR hypothesis is discharged by
`airEvaluate_genTrace`. -/
theorem claim_C1_witness :
    airEvaluate starkPrime
      (genTrace starkPrime defaultConfig.trace_length
        (extractSecret [("secret_value", 42)])) = true ∧
    verifyProof shaToy defaultConfig.num_queries
      (genProofBody starkPrime defaultConfig shaToy [("threshold", 21)] [("secret_value", 42)])
      [("threshold", 21)] = true :=
  ⟨airEvaluate_genTrace starkPrime defaultConfig.trace_length
      (extractSecret [("secret_value", 42)]),
   (claim_C1_completeness shaToy [("threshold", 21)] [("secret_value", 42)]
      (airEvaluate_genTrace starkPrime defaultConfig.trace_length
        (extractSecret [("secret_value", 42)]))).2⟩

/-! ## Claim C2: statement binding -/

/-- C2 counterexample: the proof generated for
`{claim: 0, threshold: 21}` with witness `{secret_value: 42}` is ACCEPTED
against `{claim: 0, threshold: 99}` - it is not rejected, and no
`StatementBindingMismatch` (or any statement check at all) exists in
`verify_proof`. -/
theorem claim_C2_counterexample :
    verifyProof shaToy defaultConfig.num_queries
      (genProofBody starkPrime defaultConfig shaToy
        [("claim", 0), ("threshold", 21)] [("secret_value", 42)])
      [("claim", 0), ("threshold", 99)] = true :=
  verify_genProofBody starkPrime defaultConfig shaToy
    [("claim", 0), ("threshold", 21)] [("secret_value", 42)]
    [("claim", 0), ("threshold", 99)] (by decide) (by decide) (by decide)

/-- C2 (amended): `verify_proof` never reads its statement argument, so a
proof generated for one statement is accepted against every statement
(including one whose threshold differs); no statement-binding rejection can
occur. -/
theorem claim_C2_no_statement_binding (sha : List Nat → List Nat)
    (stmt wit stmt2 : List (String × Int)) :
    verifyProof sha defaultConfig.num_queries
      (genProofBody starkPrime defaultConfig sha stmt wit) stmt2 = true ∧
    (∀ (Q : Nat) (pr : ProofRecord) (s1 s2 : List (String × Int)),
      verifyProof sha Q pr s1 = verifyProof sha Q pr s2) :=
  ⟨verify_genProofBody starkPrime defaultConfig sha stmt wit stmt2
      (by decide) (by decide) (by decide),
   fun _ _ _ _ => rfl⟩

end TrueStark

